import Mathlib

/-!
Verification of the key-press value type of this repository
(src/src/juce_appframework/gui/components/keyboard/juce_KeyPress.cpp):
equality, the live-state query, the description parser
(KeyPress::createFromDescription) and the description formatter
(KeyPress::getTextDescription).

Text is embedded as lists of character codes (Nat), faithful to the
source's tchar strings; key codes are Int (C int), modifier masks Nat.
-/

namespace JuceKeyPress

/-- Text as a list of character codes (the source's tchar strings). -/
abbrev JStr := List Nat

/-- Convert a Lean string literal to the character-code representation. -/
def str (s : String) : JStr := s.data.map Char.toNat

/-- ASCII model of CharacterFunctions::isLetterOrDigit (C locale). -/
def isLetterOrDigit (c : Nat) : Bool :=
  (48 ≤ c && c ≤ 57) || (65 ≤ c && c ≤ 90) || (97 ≤ c && c ≤ 122)

/-- ASCII model of CharacterFunctions::toLowerCase. -/
def toLowerChar (c : Nat) : Nat := if 65 ≤ c && c ≤ 90 then c + 32 else c

/-- ASCII model of CharacterFunctions::toUpperCase. -/
def toUpperChar (c : Nat) : Nat := if 97 ≤ c && c ≤ 122 then c - 32 else c

/-- Case-insensitive comparison of a word against the head of the text
(the per-position comparison of String::indexOfWholeWordIgnoreCase). -/
def startsWithIC : JStr → JStr → Bool
  | _, [] => true
  | [], _ :: _ => false
  | c :: cs, w :: ws => (toLowerChar c == toLowerChar w) && startsWithIC cs ws

/-- The character following a candidate occurrence must not be a letter or
digit (or the occurrence ends the string). -/
def boundaryAfter (t w : JStr) : Bool :=
  match t.drop w.length with
  | [] => true
  | c :: _ => !isLetterOrDigit c

/-- Scan of String::containsWholeWordIgnoreCase: prevOk records whether the
previous character was a word boundary. -/
def containsWWFrom (w : JStr) : Bool → JStr → Bool
  | prevOk, [] => w.isEmpty && prevOk
  | prevOk, c :: rest =>
      (prevOk && startsWithIC (c :: rest) w && boundaryAfter (c :: rest) w)
      || containsWWFrom w (!isLetterOrDigit c) rest

/-- String::containsWholeWordIgnoreCase. -/
def containsWholeWordIgnoreCase (t w : JStr) : Bool := containsWWFrom w true t

/-- String::fromFirstOccurrenceOf (T("#"), false, false): the substring
after the first '#', empty when there is none. -/
def fromFirstHash : JStr → JStr
  | [] => []
  | c :: rest => if c == 35 then rest else fromFirstHash rest

/-- Characters kept by retainCharacters (T("0123456789abcdef")) after
toLowerCase. -/
def isHexLowerDigit (c : Nat) : Bool := (48 ≤ c && c ≤ 57) || (97 ≤ c && c ≤ 102)

/-- toLowerCase().retainCharacters (T("0123456789abcdef")). -/
def retainedHexDigits (t : JStr) : JStr := (t.map toLowerChar).filter isHexLowerDigit

/-- Value of a lower-case hex digit character. -/
def hexDigitValue (c : Nat) : Nat :=
  if 48 ≤ c && c ≤ 57 then c - 48 else if 97 ≤ c && c ≤ 102 then c - 87 else 0

/-- String::getHexValue32: hex digits accumulated into a 32-bit signed int. -/
def getHexValue32 (t : JStr) : Int :=
  let n := t.foldl (fun a c => (a * 16 + hexDigitValue c) % 4294967296) 0
  if n < 2147483648 then (n : Int) else (n : Int) - 4294967296

/-- String::getLastCharacter: 0 for the empty string. -/
def getLastCharacter (t : JStr) : Nat := t.getLastD 0

/-- Decimal/hex digit rendering character. -/
def digitChar (n : Nat) : Nat := if n < 10 then 48 + n else 87 + n

/-- Fuel-driven digit rendering in a given base (structural recursion so
that the kernel can evaluate it). -/
def toDigitsAux (base : Nat) : Nat → Nat → JStr
  | 0, _ => []
  | fuel + 1, n =>
      if n < base then [digitChar n]
      else toDigitsAux base fuel (n / base) ++ [digitChar (n % base)]

/-- Decimal rendering of a nonnegative int (String << int). -/
def toDecString (n : Nat) : JStr := toDigitsAux 10 (n + 1) n

/-- String::toHexString of a positive int (lower-case digits). -/
def toHexString (n : Nat) : JStr := toDigitsAux 16 (n + 1) n

/-- Modelled from the spec: the ModifierKeys flag values live in the missing
juce_ModifierKeys.h; the spec describes the mask as "a bitmask over
{ctrl, shift, alt, command}", so the four flags are four distinct bits. -/
def shiftModifier : Nat := 1

def ctrlModifier : Nat := 2

def altModifier : Nat := 4

def commandModifier : Nat := 8

/-- Modelled from the spec: the named key-code constants live in the missing
juce_KeyPress.h; the spec requires them to be "a fixed set of named
special-key constants ... drawn from a reserved high range outside
printable-character space", so they are distinct values at 0x10000 and up
(spacebar keeps the space ordinal, which the table resolves before the
printable range is consulted). -/
def spaceKey : Int := 32

def returnKey : Int := 0x10001

def escapeKey : Int := 0x10002

def backspaceKey : Int := 0x10003

def leftKey : Int := 0x10004

def rightKey : Int := 0x10005

def upKey : Int := 0x10006

def downKey : Int := 0x10007

def pageUpKey : Int := 0x10008

def pageDownKey : Int := 0x10009

def homeKey : Int := 0x1000a

def endKey : Int := 0x1000b

def deleteKey : Int := 0x1000c

def insertKey : Int := 0x1000d

def tabKey : Int := 0x1000e

def playKey : Int := 0x10010

def stopKey : Int := 0x10011

def fastForwardKey : Int := 0x10012

def rewindKey : Int := 0x10013

def F1Key : Int := 0x10020

def F16Key : Int := 0x1002f

def numberPad0 : Int := 0x10040

def numberPad9 : Int := 0x10049

/-- The key-press value type: key code, raw modifier mask, produced
character (0 = unspecified). -/
structure KeyPress where
  keyCode : Int
  mods : Nat
  textCharacter : Nat
deriving DecidableEq

/-- The (tchar) cast applied to an int key code. -/
def tcharOfInt (i : Int) : Nat := (i % 4294967296).toNat

/-- KeyPress::operator== . -/
def keyPressEq (a b : KeyPress) : Bool :=
  a.mods == b.mods
  && (a.textCharacter == b.textCharacter || a.textCharacter == 0 || b.textCharacter == 0)
  && (a.keyCode == b.keyCode
      || (decide (a.keyCode < 256) && decide (b.keyCode < 256)
          && toLowerChar (tcharOfInt a.keyCode) == toLowerChar (tcharOfInt b.keyCode)))

/-- The key-code test of KeyPress::isCurrentlyDown that widens the modifier
mask by shift. -/
def isNavigationKey (k : Int) : Bool :=
  k == downKey || k == upKey || k == leftKey || k == rightKey
  || k == deleteKey || k == backspaceKey || k == returnKey || k == escapeKey
  || k == homeKey || k == endKey || k == pageUpKey || k == pageDownKey
  || (decide (F1Key ≤ k) && decide (k ≤ F16Key))

/-- KeyPress::isCurrentlyDown, with the external collaborators (the raw
key-state query and the live modifier mask) passed in explicitly. -/
def isCurrentlyDown (kp : KeyPress) (isKeyDown : Int → Bool) (liveMods : Nat) : Bool :=
  let modsMask := commandModifier ||| ctrlModifier ||| altModifier
  let modsMask := if isNavigationKey kp.keyCode then modsMask ||| shiftModifier else modsMask
  isKeyDown kp.keyCode && ((liveMods &&& modsMask) == (kp.mods &&& modsMask))

/-- The keyNameTranslations table, in source order. -/
def keyNameTranslations : List (JStr × Int) :=
  [ (str "spacebar",     spaceKey),
    (str "return",       returnKey),
    (str "escape",       escapeKey),
    (str "backspace",    backspaceKey),
    (str "cursor left",  leftKey),
    (str "cursor right", rightKey),
    (str "cursor up",    upKey),
    (str "cursor down",  downKey),
    (str "page up",      pageUpKey),
    (str "page down",    pageDownKey),
    (str "home",         homeKey),
    (str "end",          endKey),
    (str "delete",       deleteKey),
    (str "insert",       insertKey),
    (str "tab",          tabKey),
    (str "play",         playKey),
    (str "stop",         stopKey),
    (str "fast forward", fastForwardKey),
    (str "rewind",       rewindKey) ]

/-- The numberPadPrefix constant "numpad ". -/
def numberPadPfx : JStr := str "numpad "

/-- The named-key loop of createFromDescription: first whole-word match
wins (the loop breaks). -/
def scanKeyNames : List (JStr × Int) → JStr → Int
  | [], _ => 0
  | e :: rest, desc =>
      if containsWholeWordIgnoreCase desc e.1 then e.2 else scanKeyNames rest desc

/-- The numpad loop of createFromDescription: no break, later matches
overwrite earlier ones. -/
def numberPadScan (desc : JStr) : Int :=
  (List.range 10).foldl
    (fun key i =>
      if containsWholeWordIgnoreCase desc (numberPadPfx ++ toDecString i)
      then numberPad0 + (i : Int) else key) 0

/-- The function-key loop of createFromDescription (i runs over 1..12 in
the source; here i+1): no break, later matches overwrite earlier ones. -/
def functionKeyScan (desc : JStr) : Int :=
  (List.range 12).foldl
    (fun key i =>
      if containsWholeWordIgnoreCase desc (str "f" ++ toDecString (i + 1))
      then F1Key + (i : Int) else key) 0

/-- The modifier-keyword scan of createFromDescription. -/
def parseModifiers (desc : JStr) : Nat :=
  (if containsWholeWordIgnoreCase desc (str "ctrl")
      || containsWholeWordIgnoreCase desc (str "control")
      || containsWholeWordIgnoreCase desc (str "ctl")
   then ctrlModifier else 0)
  ||| (if containsWholeWordIgnoreCase desc (str "shift")
          || containsWholeWordIgnoreCase desc (str "shft")
       then shiftModifier else 0)
  ||| (if containsWholeWordIgnoreCase desc (str "alt")
          || containsWholeWordIgnoreCase desc (str "option")
       then altModifier else 0)
  ||| (if containsWholeWordIgnoreCase desc (str "command")
          || containsWholeWordIgnoreCase desc (str "cmd")
       then commandModifier else 0)

/-- KeyPress::createFromDescription. -/
def createFromDescription (desc : JStr) : KeyPress :=
  let modifiers := parseModifiers desc
  let key := scanKeyNames keyNameTranslations desc
  let key := if key == 0 then numberPadScan desc else key
  let key := if key == 0 then functionKeyScan desc else key
  let key := if key == 0 then
      let hexCode := getHexValue32 (retainedHexDigits (fromFirstHash desc))
      if hexCode > 0 then hexCode else (toUpperChar (getLastCharacter desc) : Int)
    else key
  KeyPress.mk key modifiers 0

/-- KeyPress::getTextDescription; macNaming selects the platform-conditional
branch (JUCE_MAC: command/option naming vs alt naming). -/
def getTextDescription (kp : KeyPress) (macNaming : Bool) : JStr :=
  if kp.keyCode > 0 then
    let desc : JStr :=
      (if (kp.mods &&& ctrlModifier) != 0 then str "ctrl + " else [])
      ++ (if (kp.mods &&& shiftModifier) != 0 then str "shift + " else [])
      ++ (if macNaming then
            (if (kp.mods &&& commandModifier) != 0 then str "command + " else [])
            ++ (if (kp.mods &&& altModifier) != 0 then str "option + " else [])
          else (if (kp.mods &&& altModifier) != 0 then str "alt + " else []))
    match keyNameTranslations.find? (fun e => e.2 == kp.keyCode) with
    | some e => desc ++ e.1
    | none =>
        if decide (F1Key ≤ kp.keyCode) && decide (kp.keyCode ≤ F16Key) then
          desc ++ (70 :: toDecString (1 + kp.keyCode - F1Key).toNat)
        else if decide (numberPad0 ≤ kp.keyCode) && decide (kp.keyCode ≤ numberPad9) then
          desc ++ numberPadPfx ++ toDecString (kp.keyCode - numberPad0).toNat
        else if decide (33 ≤ kp.keyCode) && decide (kp.keyCode < 176) then
          desc ++ [toUpperChar (tcharOfInt kp.keyCode)]
        else
          desc ++ (35 :: toHexString kp.keyCode.toNat)
  else []

/-- The navigation-class condition of KeyPress::isCurrentlyDown, written as
the claim states it (arrows, delete, backspace, return, escape, home, end,
page-up, page-down, or any function key). -/
def navClassSpec (k : Int) : Prop :=
  k = downKey ∨ k = upKey ∨ k = leftKey ∨ k = rightKey ∨ k = deleteKey
  ∨ k = backspaceKey ∨ k = returnKey ∨ k = escapeKey ∨ k = homeKey ∨ k = endKey
  ∨ k = pageUpKey ∨ k = pageDownKey ∨ (F1Key ≤ k ∧ k ≤ F16Key)

instance (k : Int) : Decidable (navClassSpec k) := by
  unfold navClassSpec; infer_instance

/-- The modifier comparison mask, written as the claim states it: {command,
ctrl, alt} always, plus shift exactly for navigation-class key codes. -/
def maskSpec (k : Int) : Nat :=
  if navClassSpec k
  then commandModifier ||| ctrlModifier ||| altModifier ||| shiftModifier
  else commandModifier ||| ctrlModifier ||| altModifier

/-- The key-code resolution, written rule by rule as the claim states it:
(a) first named-table entry present as a whole word; (b) "numpad N", last
match in scan order; (c) "fN", last match in scan order; (d) the hex value
after the first "#" when positive; (e) the upper-cased last character. -/
def keyCodeSpec (desc : JStr) : Int :=
  match keyNameTranslations.find? (fun e => containsWholeWordIgnoreCase desc e.1) with
  | some e => e.2
  | none =>
      match (List.range 10).reverse.find?
          (fun i => containsWholeWordIgnoreCase desc (numberPadPfx ++ toDecString i)) with
      | some i => numberPad0 + (i : Int)
      | none =>
          match (List.range 12).reverse.find?
              (fun i => containsWholeWordIgnoreCase desc (str "f" ++ toDecString (i + 1))) with
          | some i => F1Key + (i : Int)
          | none =>
              let hexCode := getHexValue32 (retainedHexDigits (fromFirstHash desc))
              if hexCode > 0 then hexCode
              else (toUpperChar (getLastCharacter desc) : Int)

/-- The modifier part of getTextDescription, split out for the round-trip
analysis (same expression as in getTextDescription). -/
def modsText (mods : Nat) (macNaming : Bool) : JStr :=
  (if (mods &&& ctrlModifier) != 0 then str "ctrl + " else [])
  ++ (if (mods &&& shiftModifier) != 0 then str "shift + " else [])
  ++ (if macNaming then
        (if (mods &&& commandModifier) != 0 then str "command + " else [])
        ++ (if (mods &&& altModifier) != 0 then str "option + " else [])
      else (if (mods &&& altModifier) != 0 then str "alt + " else []))

/-- The key-name part of getTextDescription, split out for the round-trip
analysis (same branches as in getTextDescription). -/
def keyText (k : Int) : JStr :=
  match keyNameTranslations.find? (fun e => e.2 == k) with
  | some e => e.1
  | none =>
      if decide (F1Key ≤ k) && decide (k ≤ F16Key) then
        70 :: toDecString (1 + k - F1Key).toNat
      else if decide (numberPad0 ≤ k) && decide (k ≤ numberPad9) then
        numberPadPfx ++ toDecString (k - numberPad0).toNat
      else if decide (33 ≤ k) && decide (k < 176) then
        [toUpperChar (tcharOfInt k)]
      else
        35 :: toHexString k.toNat

/-- The nine modifier keywords scanned by createFromDescription. -/
def modifierWords : List JStr :=
  [str "ctrl", str "control", str "ctl", str "shift", str "shft",
   str "alt", str "option", str "command", str "cmd"]

/-- Maximal alphanumeric runs of a text, lower-cased; acc is the reversed
current partial run. -/
def runsAux (acc : JStr) : JStr → List JStr
  | [] => if acc.isEmpty then [] else [acc.reverse]
  | c :: rest =>
      if isLetterOrDigit c then runsAux (toLowerChar c :: acc) rest
      else if acc.isEmpty then runsAux [] rest
      else acc.reverse :: runsAux [] rest

/-- The lower-cased maximal alphanumeric runs of a text: whole-word
containment of an alphanumeric word is membership in this list. -/
def lowerRuns (t : JStr) : List JStr := runsAux [] t

example : containsWholeWordIgnoreCase (str "ctrl + shift + F5") (str "shift") = true := by decide

example : containsWholeWordIgnoreCase (str "F12") (str "f1") = false := by decide

example : (createFromDescription (str "ctrl + shift + F5")).keyCode = F1Key + 4 := by decide

example : (createFromDescription (str "ctrl + shift + F5")).mods = ctrlModifier ||| shiftModifier := by decide

example : (createFromDescription (str "cursor left")).keyCode = leftKey := by decide

example : (createFromDescription (str "#41")).keyCode = 65 := by decide

example : (createFromDescription (str "")).keyCode = 0 := by decide

example : getTextDescription (KeyPress.mk leftKey (ctrlModifier ||| altModifier) 0) false
    = str "ctrl + alt + cursor left" := by decide

example : getTextDescription (KeyPress.mk (F1Key + 12) 0 0) true = str "F13" := by decide

example : (createFromDescription (str "F13")).keyCode = 51 := by decide

example : lowerRuns (str "ctrl + shift + F5") = [str "ctrl", str "shift", str "f5"] := by decide

/-! ## Claim theorems: equality, totality, formatter degenerate cases -/

/-- C1: KeyPress equality holds iff the raw modifier masks are identical,
the produced characters are equal or one of them is 0, and the key codes
are equal or are both below 256 with equal lower-cased character forms. -/
theorem keyPressEq_characterisation (a b : KeyPress) :
    keyPressEq a b = true ↔
      a.mods = b.mods
      ∧ (a.textCharacter = b.textCharacter ∨ a.textCharacter = 0 ∨ b.textCharacter = 0)
      ∧ (a.keyCode = b.keyCode
         ∨ (a.keyCode < 256 ∧ b.keyCode < 256
            ∧ toLowerChar (tcharOfInt a.keyCode) = toLowerChar (tcharOfInt b.keyCode))) := by
  simp only [keyPressEq, Bool.and_eq_true, Bool.or_eq_true, beq_iff_eq,
    decide_eq_true_eq]
  tauto

/-- C7: the parser is total, always returns produced character 0, and maps
the empty input to key code 0 with no modifiers. -/
theorem createFromDescription_total :
    (∀ desc : JStr, (createFromDescription desc).textCharacter = 0)
    ∧ createFromDescription [] = KeyPress.mk 0 0 0 := by
  refine ⟨fun desc => rfl, by decide⟩

/-- C8: KeyPress equality is reflexive and symmetric, but not transitive
across wildcard produced characters: with key code 65 and no modifiers,
characters 0 and 120 compare equal, 0 and 121 compare equal, but 120 and
121 do not. -/
theorem keyPressEq_refl_symm_not_trans :
    (∀ a : KeyPress, keyPressEq a a = true)
    ∧ (∀ a b : KeyPress, keyPressEq a b = true → keyPressEq b a = true)
    ∧ keyPressEq (KeyPress.mk 65 0 0) (KeyPress.mk 65 0 120) = true
    ∧ keyPressEq (KeyPress.mk 65 0 0) (KeyPress.mk 65 0 121) = true
    ∧ keyPressEq (KeyPress.mk 65 0 120) (KeyPress.mk 65 0 121) = false := by
  refine ⟨fun a => ?_, fun a b h => ?_, by decide, by decide, by decide⟩
  · simp [keyPressEq]
  · rw [keyPressEq_characterisation] at h ⊢
    obtain ⟨h1, h2, h3⟩ := h
    refine ⟨h1.symm, by tauto, ?_⟩
    rcases h3 with h3 | ⟨h3, h4, h5⟩
    · exact Or.inl h3.symm
    · exact Or.inr ⟨h4, h3, h5.symm⟩

/-- Closed witness for the symmetry hypothesis of the C8 theorem. -/
theorem keyPressEq_refl_symm_not_trans_witness :
    keyPressEq (KeyPress.mk 97 5 0) (KeyPress.mk 65 5 120) = true
    ∧ keyPressEq (KeyPress.mk 65 5 120) (KeyPress.mk 97 5 0) = true :=
  ⟨by decide, keyPressEq_refl_symm_not_trans.2.1 _ _ (by decide)⟩

/-- C9: the formatter is total and returns the empty string for every
descriptor with key code at most 0, whatever the modifiers, character and
platform naming. -/
theorem getTextDescription_nonpositive (kp : KeyPress) (macNaming : Bool)
    (h : kp.keyCode ≤ 0) : getTextDescription kp macNaming = [] := by
  unfold getTextDescription
  rw [if_neg (by omega : ¬ kp.keyCode > 0)]

/-- Closed witness for the C9 theorem. -/
theorem getTextDescription_nonpositive_witness :
    (-3 : Int) ≤ 0 ∧ getTextDescription (KeyPress.mk (-3) 7 120) true = [] :=
  ⟨by decide, getTextDescription_nonpositive (KeyPress.mk (-3) 7 120) true (by decide)⟩

/-- C4: isCurrentlyDown is true iff the raw key is reported down and the
live modifier mask equals the stored one after masking with {command, ctrl,
alt}, plus shift exactly when the key code is navigation-class. -/
theorem isCurrentlyDown_characterisation (kp : KeyPress) (isKeyDown : Int → Bool)
    (liveMods : Nat) :
    isCurrentlyDown kp isKeyDown liveMods = true ↔
      isKeyDown kp.keyCode = true
      ∧ (liveMods &&& maskSpec kp.keyCode) = (kp.mods &&& maskSpec kp.keyCode) := by
  have hnav : isNavigationKey kp.keyCode = true ↔ navClassSpec kp.keyCode := by
    simp only [isNavigationKey, navClassSpec, Bool.or_eq_true, Bool.and_eq_true,
      beq_iff_eq, decide_eq_true_eq]
    tauto
  unfold isCurrentlyDown maskSpec
  by_cases h : navClassSpec kp.keyCode
  · simp [hnav.mpr h, h, Bool.and_eq_true, beq_iff_eq]
  · have hb : isNavigationKey kp.keyCode = false := by
      rcases Bool.eq_false_or_eq_true (isNavigationKey kp.keyCode) with hb | hb
      · exact absurd (hnav.mp hb) h
      · exact hb
    simp [hb, h, Bool.and_eq_true, beq_iff_eq]

/-- C10: for key codes in the F13..F16 range the formatter emits "F13" up
to "F16", but the parser's function-key scan stops at f12, so parsing the
text back yields a different key code. -/
theorem fKeyHigh_text_not_parsed_back (code : Int) (macNaming : Bool)
    (h1 : F1Key + 12 ≤ code) (h2 : code ≤ F16Key) :
    getTextDescription (KeyPress.mk code 0 0) macNaming
        = str "F" ++ toDecString (1 + code - F1Key).toNat
    ∧ 13 ≤ 1 + code - F1Key ∧ 1 + code - F1Key ≤ 16
    ∧ (createFromDescription
        (getTextDescription (KeyPress.mk code 0 0) macNaming)).keyCode ≠ code := by
  have hc : code = F1Key + 12 ∨ code = F1Key + 13 ∨ code = F1Key + 14
      ∨ code = F1Key + 15 := by
    unfold F1Key at h1 ⊢; unfold F16Key at h2; omega
  rcases hc with hc | hc | hc | hc <;> subst hc <;> cases macNaming <;> decide

/-- Closed witness for the C10 theorem at the F13 key code. -/
theorem fKeyHigh_text_not_parsed_back_witness :
    F1Key + 12 ≤ F1Key + 12 ∧ F1Key + 12 ≤ F16Key
    ∧ (createFromDescription
        (getTextDescription (KeyPress.mk (F1Key + 12) 0 0) false)).keyCode
        ≠ F1Key + 12 :=
  ⟨by decide, by decide,
    (fKeyHigh_text_not_parsed_back (F1Key + 12) false (by decide) (by decide)).2.2.2⟩

/-- C5: every entry of the named-key table round-trips: formatting a
descriptor built from the entry's code and parsing the text back yields the
same key code, on both platform-naming configurations. -/
theorem keyName_table_roundtrip (e : JStr × Int) (he : e ∈ keyNameTranslations)
    (macNaming : Bool) :
    (createFromDescription (getTextDescription (KeyPress.mk e.2 0 0) macNaming)).keyCode
      = e.2 := by
  fin_cases he <;> cases macNaming <;> decide

/-- Closed witness for the C5 theorem at the "spacebar" entry. -/
theorem keyName_table_roundtrip_witness :
    (str "spacebar", spaceKey) ∈ keyNameTranslations
    ∧ (createFromDescription
        (getTextDescription (KeyPress.mk spaceKey 0 0) true)).keyCode = spaceKey :=
  ⟨by decide, keyName_table_roundtrip (str "spacebar", spaceKey) (by decide) true⟩

/-! ## Loop characterisations for the parser's key-code resolution -/

theorem scanKeyNames_eq_find (l : List (JStr × Int)) (desc : JStr) :
    scanKeyNames l desc
      = match l.find? (fun e => containsWholeWordIgnoreCase desc e.1) with
        | some e => e.2
        | none => 0 := by
  induction l with
  | nil => rfl
  | cons e rest ih =>
      rw [List.find?_cons]
      cases hc : containsWholeWordIgnoreCase desc e.1
      · simpa [scanKeyNames, hc] using ih
      · simp [scanKeyNames, hc]

theorem foldl_scan_eq (p : Nat → Bool) (g : Nat → Int) (l : List Nat) :
    l.foldl (fun key i => if p i then g i else key) 0
      = match l.reverse.find? p with
        | some i => g i
        | none => 0 := by
  induction l using List.reverseRecOn with
  | nil => rfl
  | append_singleton xs x ih =>
      rw [List.foldl_append, List.reverse_append, List.reverse_singleton,
        List.singleton_append, List.find?_cons]
      cases hp : p x
      · simpa [hp] using ih
      · simp [hp]

theorem find_rev_range (p : Nat → Bool) (k : Nat) :
    (match (List.range k).reverse.find? p with
     | some n => p n = true ∧ n < k ∧ ∀ m, n < m → m < k → p m = false
     | none => ∀ m, m < k → p m = false) := by
  induction k with
  | zero => simp
  | succ k ih =>
      rw [List.range_succ, List.reverse_append, List.reverse_singleton,
        List.singleton_append, List.find?_cons]
      cases hp : p k
      · rcases hfind : (List.range k).reverse.find? p with _ | n
        · rw [hfind] at ih
          intro m hm
          rcases Nat.lt_succ_iff_lt_or_eq.mp hm with h | rfl
          · exact ih m h
          · exact hp
        · rw [hfind] at ih
          obtain ⟨h1, h2, h3⟩ := ih
          refine ⟨h1, by omega, fun m hm hmk => ?_⟩
          rcases Nat.lt_succ_iff_lt_or_eq.mp hmk with h | rfl
          · exact h3 m hm h
          · exact hp
      · exact ⟨hp, Nat.lt_succ_self k, fun m hm hmk => by omega⟩

theorem keyNameTranslations_codes_ne_zero :
    ∀ e ∈ keyNameTranslations, e.2 ≠ 0 := by decide

/-- C2: the parser resolves the key code by the five rules in strict
priority order: first whole-word-present named-table entry in table order,
then "numpad N", then "fN", then a positive hex value after "#", then the
upper-cased last character; keyCodeSpec spells those rules out as the claim
states them. -/
theorem createFromDescription_keyCode_spec (desc : JStr) :
    (createFromDescription desc).keyCode = keyCodeSpec desc := by
  simp only [createFromDescription, keyCodeSpec, scanKeyNames_eq_find]
  rcases hfind : keyNameTranslations.find? (fun e => containsWholeWordIgnoreCase desc e.1)
    with _ | e
  · rw [hfind]
    have hnp := foldl_scan_eq
      (fun i => containsWholeWordIgnoreCase desc (numberPadPfx ++ toDecString i))
      (fun i => numberPad0 + (i : Int)) (List.range 10)
    rcases hfind2 : (List.range 10).reverse.find?
        (fun i => containsWholeWordIgnoreCase desc (numberPadPfx ++ toDecString i))
      with _ | i
    · rw [hfind2] at hnp
      have hz : numberPadScan desc = 0 := hnp
      have hfs := foldl_scan_eq
        (fun i => containsWholeWordIgnoreCase desc (str "f" ++ toDecString (i + 1)))
        (fun i => F1Key + (i : Int)) (List.range 12)
      rcases hfind3 : (List.range 12).reverse.find?
          (fun i => containsWholeWordIgnoreCase desc (str "f" ++ toDecString (i + 1)))
        with _ | i
      · rw [hfind3] at hfs
        have hz3 : functionKeyScan desc = 0 := hfs
        simp [hz, hz3]
      · rw [hfind3] at hfs
        have hv : functionKeyScan desc = F1Key + (i : Int) := hfs
        have hne : (F1Key + (i : Int) ≠ 0) := by unfold F1Key; omega
        simp [hz, hv, hne]
    · rw [hfind2] at hnp
      have hv : numberPadScan desc = numberPad0 + (i : Int) := hnp
      have hne : (numberPad0 + (i : Int) ≠ 0) := by unfold numberPad0; omega
      simp [hv, hne]
  · have he := List.mem_of_find?_eq_some hfind
    have hne := keyNameTranslations_codes_ne_zero e he
    rw [hfind]
    simp [hne]

/-- C6: when an input contains two distinct whole-word "numpad N" tokens
and no named-table name, the parser takes the match scanned last (N from 0
up to 9), not the first; the same holds for multiple "fN" tokens (N from 1
up to 12) when additionally no numpad token matches. -/
theorem scan_last_match_wins (desc : JStr) :
    ((∀ e ∈ keyNameTranslations, containsWholeWordIgnoreCase desc e.1 = false) →
      ∀ a b : Nat, a < b → b ≤ 9 →
        containsWholeWordIgnoreCase desc (numberPadPfx ++ toDecString a) = true →
        containsWholeWordIgnoreCase desc (numberPadPfx ++ toDecString b) = true →
        ∃ n : Nat, a < n ∧ n ≤ 9
          ∧ containsWholeWordIgnoreCase desc (numberPadPfx ++ toDecString n) = true
          ∧ (∀ m : Nat, n < m → m ≤ 9 →
              containsWholeWordIgnoreCase desc (numberPadPfx ++ toDecString m) = false)
          ∧ (createFromDescription desc).keyCode = numberPad0 + (n : Int))
    ∧ ((∀ e ∈ keyNameTranslations, containsWholeWordIgnoreCase desc e.1 = false) →
      (∀ i : Nat, i ≤ 9 →
          containsWholeWordIgnoreCase desc (numberPadPfx ++ toDecString i) = false) →
      ∀ a b : Nat, 1 ≤ a → a < b → b ≤ 12 →
        containsWholeWordIgnoreCase desc (str "f" ++ toDecString a) = true →
        containsWholeWordIgnoreCase desc (str "f" ++ toDecString b) = true →
        ∃ n : Nat, a < n ∧ n ≤ 12
          ∧ containsWholeWordIgnoreCase desc (str "f" ++ toDecString n) = true
          ∧ (∀ m : Nat, n < m → m ≤ 12 →
              containsWholeWordIgnoreCase desc (str "f" ++ toDecString m) = false)
          ∧ (createFromDescription desc).keyCode = F1Key + (n : Int) - 1) := by
  constructor
  · intro htable a b hab hb9 hpa hpb
    have hfindt : keyNameTranslations.find?
        (fun e => containsWholeWordIgnoreCase desc e.1) = none :=
      List.find?_eq_none.mpr (fun e he => by rw [htable e he]; exact Bool.false_ne_true)
    have hrange := find_rev_range
      (fun i => containsWholeWordIgnoreCase desc (numberPadPfx ++ toDecString i)) 10
    rcases hfind2 : (List.range 10).reverse.find?
        (fun i => containsWholeWordIgnoreCase desc (numberPadPfx ++ toDecString i))
      with _ | n
    · rw [hfind2] at hrange
      exact absurd hpb (by simpa using hrange b (by omega))
    · rw [hfind2] at hrange
      obtain ⟨h1, h2, h3⟩ := hrange
      have hbn : b ≤ n := by
        by_contra hc
        exact absurd hpb (by simpa using h3 b (by omega) (by omega))
      refine ⟨n, by omega, by omega, h1, fun m hm hm9 => by simpa using h3 m hm (by omega), ?_⟩
      rw [createFromDescription_keyCode_spec]
      unfold keyCodeSpec
      rw [hfindt, hfind2]
  · intro htable hnonp a b ha1 hab hb12 hpa hpb
    have hfindt : keyNameTranslations.find?
        (fun e => containsWholeWordIgnoreCase desc e.1) = none :=
      List.find?_eq_none.mpr (fun e he => by rw [htable e he]; exact Bool.false_ne_true)
    have hfindn : (List.range 10).reverse.find?
        (fun i => containsWholeWordIgnoreCase desc (numberPadPfx ++ toDecString i)) = none := by
      refine List.find?_eq_none.mpr (fun i hi => ?_)
      have : i < 10 := by simpa using List.mem_range.mp (by simpa using hi)
      rw [hnonp i (by omega)]; exact Bool.false_ne_true
    have hrange := find_rev_range
      (fun i => containsWholeWordIgnoreCase desc (str "f" ++ toDecString (i + 1))) 12
    rcases hfind3 : (List.range 12).reverse.find?
        (fun i => containsWholeWordIgnoreCase desc (str "f" ++ toDecString (i + 1)))
      with _ | n
    · rw [hfind3] at hrange
      have := hrange (b - 1) (by omega)
      rw [show b - 1 + 1 = b by omega] at this
      exact absurd hpb (by simpa using this)
    · rw [hfind3] at hrange
      obtain ⟨h1, h2, h3⟩ := hrange
      have hbn : b - 1 ≤ n := by
        by_contra hc
        have := h3 (b - 1) (by omega) (by omega)
        rw [show b - 1 + 1 = b by omega] at this
        exact absurd hpb (by simpa using this)
      refine ⟨n + 1, by omega, by omega, h1, fun m hm hm12 => ?_, ?_⟩
      · have := h3 (m - 1) (by omega) (by omega)
        rw [show m - 1 + 1 = m by omega] at this
        simpa using this
      · rw [createFromDescription_keyCode_spec]
        unfold keyCodeSpec
        rw [hfindt, hfindn, hfind3]
        push_cast
        ring

/-- Closed witness for the C6 theorem on the input "numpad 3 numpad 5". -/
theorem scan_last_match_wins_witness :
    ∃ n : Nat, 3 < n ∧ n ≤ 9
      ∧ containsWholeWordIgnoreCase (str "numpad 3 numpad 5")
          (numberPadPfx ++ toDecString n) = true
      ∧ (∀ m : Nat, n < m → m ≤ 9 →
          containsWholeWordIgnoreCase (str "numpad 3 numpad 5")
            (numberPadPfx ++ toDecString m) = false)
      ∧ (createFromDescription (str "numpad 3 numpad 5")).keyCode
          = numberPad0 + (n : Int) :=
  (scan_last_match_wins (str "numpad 3 numpad 5")).1 (by decide) 3 5 (by decide)
    (by decide) (by decide) (by decide)

/-! ## Whole-word containment as membership among alphanumeric runs -/

theorem toLowerChar_idem (c : Nat) : toLowerChar (toLowerChar c) = toLowerChar c := by
  unfold toLowerChar
  split_ifs with h1 h2
  · simp only [Bool.and_eq_true, decide_eq_true_eq] at h1 h2
    omega
  · rfl
  · rfl

theorem isLetterOrDigit_toLowerChar (c : Nat) :
    isLetterOrDigit (toLowerChar c) = isLetterOrDigit c := by
  unfold toLowerChar isLetterOrDigit
  split_ifs with h1
  · simp only [Bool.and_eq_true, decide_eq_true_eq] at h1
    rw [Bool.eq_iff_iff]
    simp only [Bool.or_eq_true, Bool.and_eq_true, decide_eq_true_eq]
    constructor <;> intro h <;> omega
  · rfl

theorem run_of_match : ∀ (w t acc : JStr), w ≠ [] →
    (∀ c ∈ w, isLetterOrDigit c = true) → w.map toLowerChar = w →
    startsWithIC t w = true → boundaryAfter t w = true →
    (acc.reverse ++ w) ∈ runsAux acc t
  | [], _, _, hne, _, _, _, _ => absurd rfl hne
  | x :: ws, [], acc, _, _, _, hsw, _ => by cases hsw
  | [x], c :: t', acc, _, halnum, hlow, hsw, hba => by
      have hcx : toLowerChar c = x := by
        have h1 : toLowerChar x = x := by
          have := congrArg (fun l => l.headI) hlow
          simpa using this
        simp only [startsWithIC, Bool.and_eq_true, beq_iff_eq] at hsw
        rw [hsw.1, h1]
      have hcal : isLetterOrDigit c = true := by
        rw [← isLetterOrDigit_toLowerChar, hcx]
        exact halnum x (by simp)
      have hba' : t'.drop 0 = t' := rfl
      simp only [boundaryAfter, List.length_cons, List.length_nil, List.drop_succ_cons,
        List.drop_zero] at hba
      cases t' with
      | nil =>
          simp [runsAux, hcal, hcx]
      | cons d r =>
          have hd : isLetterOrDigit d = false := by
            simpa using hba
          simp [runsAux, hcal, hcx, hd]
  | x :: y :: ws, c :: t', acc, _, halnum, hlow, hsw, hba => by
      simp only [startsWithIC, Bool.and_eq_true, beq_iff_eq] at hsw
      have h1 : toLowerChar x = x := by
        have := congrArg (fun l => l.headI) hlow
        simpa using this
      have hcx : toLowerChar c = x := by rw [hsw.1, h1]
      have hcal : isLetterOrDigit c = true := by
        rw [← isLetterOrDigit_toLowerChar, hcx]
        exact halnum x (by simp)
      have hrec := run_of_match (y :: ws) t' (x :: acc) (by simp)
        (fun d hd => halnum d (by simp [hd]))
        (by
          have := congrArg (fun l => l.tail) hlow
          simpa using this)
        hsw.2
        (by
          simp only [boundaryAfter, List.length_cons, List.drop_succ_cons] at hba ⊢
          exact hba)
      simp only [runsAux, hcal, if_true, hcx]
      simpa [List.append_assoc] using hrec

theorem mem_runs_of_contains : ∀ (t acc w : JStr), w ≠ [] →
    (∀ c ∈ w, isLetterOrDigit c = true) → w.map toLowerChar = w →
    containsWWFrom w acc.isEmpty t = true → w ∈ runsAux acc t
  | [], acc, w, hne, _, _, hc => by
      simp only [containsWWFrom, Bool.and_eq_true, List.isEmpty_iff] at hc
      exact absurd hc.1 hne
  | c :: rest, acc, w, hne, halnum, hlow, hc => by
      simp only [containsWWFrom, Bool.or_eq_true, Bool.and_eq_true] at hc
      rcases hc with ⟨⟨hacc, hsw⟩, hba⟩ | hc
      · have hacc' : acc = [] := List.isEmpty_iff.mp hacc
        subst hacc'
        simpa using run_of_match w (c :: rest) [] hne halnum hlow hsw hba
      · cases hd : isLetterOrDigit c
        · rw [hd] at hc
          have hrec := mem_runs_of_contains rest [] w hne halnum hlow (by simpa using hc)
          simp only [runsAux, hd]
          cases acc with
          | nil => simpa using hrec
          | cons a as => simp only [List.isEmpty_cons, if_neg]; simp [hrec]
        · rw [hd] at hc
          have hrec := mem_runs_of_contains rest (toLowerChar c :: acc) w hne halnum hlow
            (by simpa using hc)
          simpa [runsAux, hd] using hrec

theorem containsWWFrom_of_pos (t u : JStr) (hsw : startsWithIC t u = true)
    (hba : boundaryAfter t u = true) : containsWWFrom u true t = true := by
  cases t with
  | nil =>
      cases u with
      | nil => rfl
      | cons x xs => cases hsw
  | cons c rest =>
      simp only [containsWWFrom, Bool.or_eq_true, Bool.and_eq_true, Bool.true_and]
      exact Or.inl ⟨hsw, hba⟩

theorem contains_of_mem_runs_aux : ∀ (t acc w : JStr),
    w ∈ runsAux acc t →
    containsWWFrom w acc.isEmpty t = true
    ∨ ∃ u, w = acc.reverse ++ u ∧ startsWithIC t u = true ∧ boundaryAfter t u = true
  | [], acc, w, hm => by
      rcases acc with _ | ⟨a, as⟩
      · simp [runsAux] at hm
      · simp [runsAux] at hm
        exact Or.inr ⟨[], by simp [hm], rfl, rfl⟩
  | c :: rest, acc, w, hm => by
      cases hd : isLetterOrDigit c
      · rw [runsAux, hd] at hm
        simp only [Bool.false_eq_true, if_false] at hm
        rcases hacc : acc with _ | ⟨a, as⟩
        · subst hacc
          simp only [List.isEmpty_nil, if_true] at hm
          rcases contains_of_mem_runs_aux rest [] w hm with h | ⟨u, hu, hsw, hba⟩
          · left
            simp only [containsWWFrom, Bool.or_eq_true]
            right
            simpa [hd] using h
          · left
            simp only [containsWWFrom, Bool.or_eq_true]
            right
            rw [hd]
            have : containsWWFrom u true rest = true := containsWWFrom_of_pos rest u hsw hba
            simpa [hu] using this
        · subst hacc
          simp only [List.isEmpty_cons] at hm
          rw [if_neg (by simp)] at hm
          rcases List.mem_cons.mp hm with hm | hm
          · exact Or.inr ⟨[], by simp [hm], rfl, by simp [boundaryAfter, hd]⟩
          · rcases contains_of_mem_runs_aux rest [] w hm with h | ⟨u, hu, hsw, hba⟩
            · left
              simp only [containsWWFrom, Bool.or_eq_true]
              right
              simpa [hd] using h
            · left
              simp only [containsWWFrom, Bool.or_eq_true]
              right
              rw [hd]
              have : containsWWFrom u true rest = true := containsWWFrom_of_pos rest u hsw hba
              simpa [hu] using this
      · rw [runsAux, hd] at hm
        simp only [if_true] at hm
        rcases contains_of_mem_runs_aux rest (toLowerChar c :: acc) w hm
          with h | ⟨u, hu, hsw, hba⟩
        · left
          simp only [containsWWFrom, Bool.or_eq_true]
          right
          simpa [hd] using h
        · right
          refine ⟨toLowerChar c :: u, ?_, ?_, ?_⟩
          · simpa [List.append_assoc] using hu
          · simp only [startsWithIC, Bool.and_eq_true, beq_iff_eq]
            exact ⟨(toLowerChar_idem c).symm, hsw⟩
          · simpa [boundaryAfter, List.drop_succ_cons] using hba

theorem containsWW_iff_mem_runs (t w : JStr) (hne : w ≠ [])
    (halnum : ∀ c ∈ w, isLetterOrDigit c = true) (hlow : w.map toLowerChar = w) :
    containsWholeWordIgnoreCase t w = true ↔ w ∈ lowerRuns t := by
  constructor
  · intro h
    exact mem_runs_of_contains t [] w hne halnum hlow (by simpa using h)
  · intro h
    rcases contains_of_mem_runs_aux t [] w h with h' | ⟨u, hu, hsw, hba⟩
    · simpa using h'
    · have : u = w := by simpa using hu.symm
      subst this
      exact containsWWFrom_of_pos t u hsw hba

theorem containsWW_eq_decide_mem (t w : JStr) (hne : w ≠ [])
    (halnum : ∀ c ∈ w, isLetterOrDigit c = true) (hlow : w.map toLowerChar = w) :
    containsWholeWordIgnoreCase t w = decide (w ∈ lowerRuns t) := by
  rcases hb : containsWholeWordIgnoreCase t w
  · symm
    simp only [decide_eq_false_iff_not]
    intro hmem
    rw [(containsWW_iff_mem_runs t w hne halnum hlow).mpr hmem] at hb
    cases hb
  · symm
    simp only [decide_eq_true_eq]
    exact (containsWW_iff_mem_runs t w hne halnum hlow).mp hb

theorem runsAux_append_boundary (c : Nat) (hc : isLetterOrDigit c = false) :
    ∀ (u' acc v : JStr),
      runsAux acc ((u' ++ [c]) ++ v) = runsAux acc (u' ++ [c]) ++ runsAux [] v
  | [], acc, v => by
      cases acc with
      | nil => simp [runsAux, hc]
      | cons a as => simp [runsAux, hc]
  | d :: u', acc, v => by
      have e1 : ((d :: u') ++ [c]) ++ v = d :: ((u' ++ [c]) ++ v) := by simp
      have e2 : (d :: u') ++ [c] = d :: (u' ++ [c]) := by simp
      rw [e1, e2, runsAux, runsAux]
      cases hd : isLetterOrDigit d
      · cases acc with
        | nil =>
            simp only [hd, List.isEmpty_nil, Bool.false_eq_true, if_false, if_true]
            exact runsAux_append_boundary c hc u' [] v
        | cons a as =>
            simp only [hd, List.isEmpty_cons, Bool.false_eq_true, if_false]
            rw [runsAux_append_boundary c hc u' [] v]
            simp
      · simp only [hd, if_true]
        exact runsAux_append_boundary c hc u' (toLowerChar d :: acc) v

theorem lowerRuns_ctrl_chunk (v : JStr) :
    lowerRuns (str "ctrl + " ++ v) = str "ctrl" :: lowerRuns v := by
  have h := runsAux_append_boundary 32 (by decide) (str "ctrl +") [] v
  rw [show str "ctrl +" ++ [32] = str "ctrl + " from by decide] at h
  rw [lowerRuns, h, show runsAux [] (str "ctrl + ") = [str "ctrl"] from by decide]
  rfl

theorem lowerRuns_shift_chunk (v : JStr) :
    lowerRuns (str "shift + " ++ v) = str "shift" :: lowerRuns v := by
  have h := runsAux_append_boundary 32 (by decide) (str "shift +") [] v
  rw [show str "shift +" ++ [32] = str "shift + " from by decide] at h
  rw [lowerRuns, h, show runsAux [] (str "shift + ") = [str "shift"] from by decide]
  rfl

theorem lowerRuns_command_chunk (v : JStr) :
    lowerRuns (str "command + " ++ v) = str "command" :: lowerRuns v := by
  have h := runsAux_append_boundary 32 (by decide) (str "command +") [] v
  rw [show str "command +" ++ [32] = str "command + " from by decide] at h
  rw [lowerRuns, h, show runsAux [] (str "command + ") = [str "command"] from by decide]
  rfl

theorem lowerRuns_option_chunk (v : JStr) :
    lowerRuns (str "option + " ++ v) = str "option" :: lowerRuns v := by
  have h := runsAux_append_boundary 32 (by decide) (str "option +") [] v
  rw [show str "option +" ++ [32] = str "option + " from by decide] at h
  rw [lowerRuns, h, show runsAux [] (str "option + ") = [str "option"] from by decide]
  rfl

theorem lowerRuns_alt_chunk (v : JStr) :
    lowerRuns (str "alt + " ++ v) = str "alt" :: lowerRuns v := by
  have h := runsAux_append_boundary 32 (by decide) (str "alt +") [] v
  rw [show str "alt +" ++ [32] = str "alt + " from by decide] at h
  rw [lowerRuns, h, show runsAux [] (str "alt + ") = [str "alt"] from by decide]
  rfl

theorem lowerRuns_ite_chunk (p : Prop) [Decidable p] (csrc r : JStr)
    (hch : ∀ v, lowerRuns (csrc ++ v) = r :: lowerRuns v) (v : JStr) :
    lowerRuns ((if p then csrc else []) ++ v)
      = (if p then [r] else []) ++ lowerRuns v := by
  by_cases h : p <;> simp [h, hch]

theorem mem_ite_nil {α : Type} (x : α) (p : Prop) [Decidable p] (l : List α) :
    (x ∈ if p then l else []) ↔ p ∧ x ∈ l := by
  by_cases h : p <;> simp [h]

/-! ## No modifier keyword occurs in the key part of a formatted text -/

theorem digitChar_hex (m : Nat) (hm : m < 16) : isHexLowerDigit (digitChar m) = true := by
  interval_cases m <;> decide

theorem toDigitsAux_hex : ∀ (fuel n : Nat), ∀ c ∈ toDigitsAux 16 fuel n,
    isHexLowerDigit c = true
  | 0, n => by simp [toDigitsAux]
  | fuel + 1, n => by
      intro c hc
      rw [toDigitsAux] at hc
      by_cases h : n < 16
      · rw [if_pos h] at hc
        simp only [List.mem_singleton] at hc
        subst hc
        exact digitChar_hex n h
      · rw [if_neg h] at hc
        rcases List.mem_append.mp hc with hc | hc
        · exact toDigitsAux_hex fuel (n / 16) c hc
        · simp only [List.mem_singleton] at hc
          subst hc
          exact digitChar_hex _ (Nat.mod_lt _ (by omega))

theorem toDigitsAux_ne_nil (base fuel n : Nat) : toDigitsAux base (fuel + 1) n ≠ [] := by
  rw [toDigitsAux]
  split_ifs with h
  · simp
  · simp

theorem hex_alnum (c : Nat) (h : isHexLowerDigit c = true) : isLetterOrDigit c = true := by
  unfold isHexLowerDigit at h
  unfold isLetterOrDigit
  simp only [Bool.or_eq_true, Bool.and_eq_true, decide_eq_true_eq] at h ⊢
  omega

theorem hex_toLower (c : Nat) (h : isHexLowerDigit c = true) : toLowerChar c = c := by
  unfold isHexLowerDigit at h
  unfold toLowerChar
  simp only [Bool.or_eq_true, Bool.and_eq_true, decide_eq_true_eq] at h
  rw [if_neg]
  simp only [Bool.and_eq_true, decide_eq_true_eq, not_and]
  omega

theorem runsAux_all_alnum : ∀ (l acc : JStr), l ≠ [] →
    (∀ c ∈ l, isLetterOrDigit c = true) →
    runsAux acc l = [acc.reverse ++ l.map toLowerChar]
  | [], _, hne, _ => absurd rfl hne
  | [x], acc, _, hal => by
      have hx := hal x (by simp)
      simp [runsAux, hx]
  | x :: y :: l, acc, _, hal => by
      have hx := hal x (by simp)
      rw [runsAux, if_pos hx, runsAux_all_alnum (y :: l) (toLowerChar x :: acc) (by simp)
        (fun c hc => hal c (by simp [hc]))]
      simp [List.append_assoc]

theorem lowerRuns_single (c : Nat) :
    lowerRuns [c] = if isLetterOrDigit c then [[toLowerChar c]] else [] := by
  cases h : isLetterOrDigit c <;> simp [lowerRuns, runsAux, h]

theorem modword_not_in_table_names :
    ∀ e ∈ keyNameTranslations, ∀ w ∈ modifierWords, w ∉ lowerRuns e.1 := by decide

theorem modword_lengths : ∀ w ∈ modifierWords, 3 ≤ w.length := by decide

theorem modword_not_in_keyText (k : Int) (w : JStr) (hw : w ∈ modifierWords) :
    w ∉ lowerRuns (keyText k) := by
  unfold keyText
  rcases hfind : keyNameTranslations.find? (fun e => e.2 == k) with _ | e
  · rw [hfind]
    by_cases hF : (decide (F1Key ≤ k) && decide (k ≤ F16Key)) = true
    · rw [if_pos hF]
      simp only [Bool.and_eq_true, decide_eq_true_eq] at hF
      obtain ⟨hF1, hF2⟩ := hF
      unfold F1Key at hF1
      unfold F16Key at hF2
      interval_cases k <;> fin_cases hw <;> decide
    · rw [if_neg hF]
      by_cases hNP : (decide (numberPad0 ≤ k) && decide (k ≤ numberPad9)) = true
      · rw [if_pos hNP]
        simp only [Bool.and_eq_true, decide_eq_true_eq] at hNP
        obtain ⟨hN1, hN2⟩ := hNP
        unfold numberPad0 at hN1
        unfold numberPad9 at hN2
        interval_cases k <;> fin_cases hw <;> decide
      · rw [if_neg hNP]
        by_cases hPr : (decide (33 ≤ k) && decide (k < 176)) = true
        · rw [if_pos hPr]
          rw [lowerRuns_single]
          intro hmem
          have hlen : w.length = 1 := by
            rcases hc : isLetterOrDigit (toUpperChar (tcharOfInt k)) with _ | _
            · rw [hc] at hmem
              simp at hmem
            · rw [hc] at hmem
              simp only [if_true, List.mem_singleton] at hmem
              rw [hmem]
              rfl
          have := modword_lengths w hw
          omega
        · rw [if_neg hPr]
          have hsplit : lowerRuns (35 :: toHexString k.toNat)
              = runsAux [] (toHexString k.toNat) := by
            rw [lowerRuns, runsAux]
            simp [show isLetterOrDigit 35 = false from by decide]
          rw [hsplit, runsAux_all_alnum (toHexString k.toNat) []
            (toDigitsAux_ne_nil 16 k.toNat k.toNat)
            (fun c hc => hex_alnum c (toDigitsAux_hex _ _ c hc))]
          intro hmem
          simp only [List.mem_singleton, List.reverse_nil, List.nil_append] at hmem
          have hnonhex : ∃ c ∈ w, isHexLowerDigit c = false := by
            fin_cases hw <;> decide
          obtain ⟨c, hcw, hchex⟩ := hnonhex
          rw [hmem] at hcw
          obtain ⟨c', hc', hlc⟩ := List.mem_map.mp hcw
          have hhx : isHexLowerDigit c' = true := toDigitsAux_hex _ _ c' hc'
          rw [hex_toLower c' hhx] at hlc
          rw [hlc, hchex] at hhx
          cases hhx
  · rw [hfind]
    exact modword_not_in_table_names e (List.mem_of_find?_eq_some hfind) w hw

theorem append_ite4 {α : Type} (c1 c2 c3 : Prop) [Decidable c1] [Decidable c2]
    [Decidable c3] (a x1 x2 x3 x4 : List α) :
    (if c1 then a ++ x1 else if c2 then a ++ x2 else if c3 then a ++ x3 else a ++ x4)
      = a ++ (if c1 then x1 else if c2 then x2 else if c3 then x3 else x4) := by
  split_ifs <;> rfl

theorem getTextDescription_decompose (d : KeyPress) (mac : Bool) (hk : d.keyCode > 0) :
    getTextDescription d mac = modsText d.mods mac ++ keyText d.keyCode := by
  simp only [getTextDescription, keyText]
  rw [if_pos hk]
  rcases hfind : keyNameTranslations.find? (fun e => e.2 == d.keyCode) with _ | e
  · rw [hfind]
    simp only [List.append_assoc]
    rw [append_ite4, append_ite4, append_ite4]
    simp only [modsText, List.append_assoc]
  · rw [hfind]
    simp only [modsText]

theorem parseModifiers_format (d : KeyPress) (mac : Bool) (hk : d.keyCode > 0) :
    parseModifiers (getTextDescription d mac)
      = (if (d.mods &&& ctrlModifier) ≠ 0 then ctrlModifier else 0)
        ||| (if (d.mods &&& shiftModifier) ≠ 0 then shiftModifier else 0)
        ||| (if (d.mods &&& altModifier) ≠ 0 then altModifier else 0)
        ||| (if mac = true ∧ (d.mods &&& commandModifier) ≠ 0
             then commandModifier else 0) := by
  rw [getTextDescription_decompose d mac hk]
  have hK := fun w hw => modword_not_in_keyText d.keyCode w hw
  cases mac
  · have hruns : lowerRuns (modsText d.mods false ++ keyText d.keyCode)
        = (if ((d.mods &&& ctrlModifier) != 0) = true then [str "ctrl"] else [])
          ++ ((if ((d.mods &&& shiftModifier) != 0) = true then [str "shift"] else [])
          ++ ((if ((d.mods &&& altModifier) != 0) = true then [str "alt"] else [])
          ++ lowerRuns (keyText d.keyCode))) := by
      simp only [modsText, Bool.false_eq_true, if_false, List.append_assoc]
      rw [lowerRuns_ite_chunk _ _ _ lowerRuns_ctrl_chunk,
        lowerRuns_ite_chunk _ _ _ lowerRuns_shift_chunk,
        lowerRuns_ite_chunk _ _ _ lowerRuns_alt_chunk]
    simp only [parseModifiers]
    rw [containsWW_eq_decide_mem _ (str "ctrl") (by decide) (by decide) (by decide),
      containsWW_eq_decide_mem _ (str "control") (by decide) (by decide) (by decide),
      containsWW_eq_decide_mem _ (str "ctl") (by decide) (by decide) (by decide),
      containsWW_eq_decide_mem _ (str "shift") (by decide) (by decide) (by decide),
      containsWW_eq_decide_mem _ (str "shft") (by decide) (by decide) (by decide),
      containsWW_eq_decide_mem _ (str "alt") (by decide) (by decide) (by decide),
      containsWW_eq_decide_mem _ (str "option") (by decide) (by decide) (by decide),
      containsWW_eq_decide_mem _ (str "command") (by decide) (by decide) (by decide),
      containsWW_eq_decide_mem _ (str "cmd") (by decide) (by decide) (by decide),
      hruns]
    simp only [List.mem_append, mem_ite_nil, List.mem_singleton,
      hK (str "ctrl") (by decide), hK (str "control") (by decide),
      hK (str "ctl") (by decide), hK (str "shift") (by decide),
      hK (str "shft") (by decide), hK (str "alt") (by decide),
      hK (str "option") (by decide), hK (str "command") (by decide),
      hK (str "cmd") (by decide)]
    simp +decide [bne_iff_ne]
  · have hruns : lowerRuns (modsText d.mods true ++ keyText d.keyCode)
        = (if ((d.mods &&& ctrlModifier) != 0) = true then [str "ctrl"] else [])
          ++ ((if ((d.mods &&& shiftModifier) != 0) = true then [str "shift"] else [])
          ++ ((if ((d.mods &&& commandModifier) != 0) = true then [str "command"] else [])
          ++ ((if ((d.mods &&& altModifier) != 0) = true then [str "option"] else [])
          ++ lowerRuns (keyText d.keyCode)))) := by
      simp only [modsText, if_true, List.append_assoc]
      rw [lowerRuns_ite_chunk _ _ _ lowerRuns_ctrl_chunk,
        lowerRuns_ite_chunk _ _ _ lowerRuns_shift_chunk,
        lowerRuns_ite_chunk _ _ _ lowerRuns_command_chunk,
        lowerRuns_ite_chunk _ _ _ lowerRuns_option_chunk]
    simp only [parseModifiers]
    rw [containsWW_eq_decide_mem _ (str "ctrl") (by decide) (by decide) (by decide),
      containsWW_eq_decide_mem _ (str "control") (by decide) (by decide) (by decide),
      containsWW_eq_decide_mem _ (str "ctl") (by decide) (by decide) (by decide),
      containsWW_eq_decide_mem _ (str "shift") (by decide) (by decide) (by decide),
      containsWW_eq_decide_mem _ (str "shft") (by decide) (by decide) (by decide),
      containsWW_eq_decide_mem _ (str "alt") (by decide) (by decide) (by decide),
      containsWW_eq_decide_mem _ (str "option") (by decide) (by decide) (by decide),
      containsWW_eq_decide_mem _ (str "command") (by decide) (by decide) (by decide),
      containsWW_eq_decide_mem _ (str "cmd") (by decide) (by decide) (by decide),
      hruns]
    simp only [List.mem_append, mem_ite_nil, List.mem_singleton,
      hK (str "ctrl") (by decide), hK (str "control") (by decide),
      hK (str "ctl") (by decide), hK (str "shift") (by decide),
      hK (str "shft") (by decide), hK (str "alt") (by decide),
      hK (str "option") (by decide), hK (str "command") (by decide),
      hK (str "cmd") (by decide)]
    simp +decide [bne_iff_ne]

/-- Counterexample to C3: on the alt-naming platform the formatter drops
the command modifier, so for key code 65 with only command set the parsed
modifier mask is not the stored one. -/
theorem modifier_roundtrip_counterexample :
    (createFromDescription
        (getTextDescription (KeyPress.mk 65 commandModifier 0) false)).mods
      ≠ commandModifier := by decide

/-- C3 (amended): for every descriptor with key code > 0 whose modifier
mask lies within the four modifier flags, the modifier mask round-trips
through the text format on the command/option-naming platform, and on the
alt-naming platform whenever the command flag is not set. -/
theorem modifier_roundtrip_amended (d : KeyPress) (hk : d.keyCode > 0)
    (hm : d.mods < 16) :
    (createFromDescription (getTextDescription d true)).mods = d.mods
    ∧ ((d.mods &&& commandModifier) = 0 →
        (createFromDescription (getTextDescription d false)).mods = d.mods) := by
  have h1 := parseModifiers_format d true hk
  have h2 := parseModifiers_format d false hk
  have e1 : (createFromDescription (getTextDescription d true)).mods
      = parseModifiers (getTextDescription d true) := rfl
  have e2 : (createFromDescription (getTextDescription d false)).mods
      = parseModifiers (getTextDescription d false) := rfl
  rw [e1, e2, h1, h2]
  generalize hg : d.mods = m
  rw [hg] at hm
  have hmcases : m = 0 ∨ m = 1 ∨ m = 2 ∨ m = 3 ∨ m = 4 ∨ m = 5 ∨ m = 6 ∨ m = 7
      ∨ m = 8 ∨ m = 9 ∨ m = 10 ∨ m = 11 ∨ m = 12 ∨ m = 13 ∨ m = 14 ∨ m = 15 := by
    omega
  constructor
  · rcases hmcases with rfl | rfl | rfl | rfl | rfl | rfl | rfl | rfl | rfl | rfl | rfl
      | rfl | rfl | rfl | rfl | rfl <;> decide
  · intro hcmd
    rcases hmcases with rfl | rfl | rfl | rfl | rfl | rfl | rfl | rfl | rfl | rfl | rfl
      | rfl | rfl | rfl | rfl | rfl <;> revert hcmd <;> decide

/-- Closed witness for the C3 amended theorem at key code 65 with all four
modifier flags set. -/
theorem modifier_roundtrip_amended_witness :
    (65 : Int) > 0 ∧ (15 : Nat) < 16
    ∧ (createFromDescription (getTextDescription (KeyPress.mk 65 15 0) true)).mods = 15 :=
  ⟨by decide, by decide,
    (modifier_roundtrip_amended (KeyPress.mk 65 15 0) (by decide) (by decide)).1⟩

end JuceKeyPress
